import Mathlib

/-!
Shallow embedding of the rem-rs reminder-file format library (src/lib.rs).

The source is a line-oriented recursive-descent parser over whitespace-split
words.  Each Rust method of `Parser` takes `&mut self` and returns a
`Result`; we model a method as a function `Parser → Except String α × Parser`
that always returns the (possibly advanced) parser state, matching the
in-place mutation of the original even on the error path.

Machine integers are modelled as `Nat` with explicit bounds: Rust's
`str::parse::<u32>` / `::<u8>` becomes `parseUInt (2^32)` / `parseUInt (2^8)`
(an error when the literal exceeds the bound, as in Rust), and the casts
`as u8` / `as u16` in `Parser::date` become `% 2^8` / `% 2^16`.
`std::time::Duration` is modelled by its number of whole seconds (`Nat`),
`Duration::from_secs n` being just `n`.  String helpers (`split_whitespace`,
`split(':')`, `trim`, `to_lowercase`, `join(" ")`) are re-implemented by
structural recursion over the character list so that everything evaluates.

The driver `parse` consumes the result of the line-reading collaborator as a
`List (Except String String)`: one `.ok line` per successfully read line, or
`.error e` where `BufRead::lines` would yield an `Err` (whose `to_string` is
`e`).
-/

namespace Rem

inductive Month
  | January
  | February
  | March
  | April
  | May
  | June
  | July
  | August
  | September
  | October
  | November
  | December
deriving DecidableEq

structure Date where
  day : Nat
  month : Month
  year : Nat
deriving DecidableEq

structure Time where
  hour : Nat
  minute : Nat
deriving DecidableEq

/-- `Entry` as in the source; `duration` is the `std::time::Duration` in
whole seconds. -/
structure Entry where
  date : Date
  duration : Nat
  msg : String
  time : Time
deriving DecidableEq

/-- Rust `str::to_lowercase` (ASCII fragment, which is all the grammar uses). -/
def toLowercase (s : String) : String :=
  String.mk (s.data.map Char.toLower)

/-- Digit-accumulation loop of Rust `from_str_radix` (radix 10, unsigned):
errors out as soon as the accumulated value would reach `bound`. -/
def parseUIntPos (bound : Nat) : List Char → Nat → Except String Nat
  | [], a => .ok a
  | c :: cs, a =>
    if c.isDigit then
      if a * 10 + (c.toNat - 48) < bound then
        parseUIntPos bound cs (a * 10 + (c.toNat - 48))
      else .error "number too large to fit in target type"
    else .error "invalid digit found in string"

/-- Rust `str::parse` into an unsigned integer type with `bound = 2^width`;
the error strings are the `ParseIntError` display strings produced by
`error.to_string()` in the source.  For an unsigned target only a leading
`+` is a sign: a lone `+` or `-` is rejected up front, and any other
`-`-prefixed string reaches the digit loop where `-` is an invalid digit. -/
def parseUInt (bound : Nat) (s : String) : Except String Nat :=
  match s.data with
  | [] => .error "cannot parse integer from empty string"
  | ['+'] => .error "invalid digit found in string"
  | ['-'] => .error "invalid digit found in string"
  | '+' :: cs => parseUIntPos bound cs 0
  | cs => parseUIntPos bound cs 0

/-- Rust `str::split_whitespace`: maximal runs of non-whitespace characters. -/
def splitWsAux : List Char → List Char → List String
  | [], [] => []
  | [], acc => [String.mk acc.reverse]
  | c :: cs, acc =>
    if c.isWhitespace then
      if acc.isEmpty then splitWsAux cs []
      else String.mk acc.reverse :: splitWsAux cs []
    else splitWsAux cs (c :: acc)

def split_whitespace (s : String) : List String :=
  splitWsAux s.data []

/-- Rust `str::split(':')`: pieces between `:` separators, empty pieces kept. -/
def splitColonAux : List Char → List Char → List String
  | [], acc => [String.mk acc.reverse]
  | c :: cs, acc =>
    if c = ':' then String.mk acc.reverse :: splitColonAux cs []
    else splitColonAux cs (c :: acc)

def splitColon (s : String) : List String :=
  splitColonAux s.data []

/-- Rust `str::trim` (ASCII whitespace fragment). -/
def trimStr (s : String) : String :=
  String.mk (((s.data.dropWhile Char.isWhitespace).reverse.dropWhile
    Char.isWhitespace).reverse)

/-- Rust `[String]::join(" ")`. -/
def joinSpace : List String → String
  | [] => ""
  | [w] => w
  | w :: ws => w ++ " " ++ joinSpace ws

structure Parser where
  index : Nat
  words : List String
deriving DecidableEq

/-- `Parser::new`: split the line on whitespace, drop words that are empty
after trimming, start the cursor at 0. -/
def Parser.new (line : String) : Parser :=
  { index := 0
    words := (split_whitespace line).filter fun word => !(trimStr word).data.isEmpty }

/-- `Parser::next_word`: return the word at the cursor and advance, or
`none` (cursor unchanged) when exhausted. -/
def Parser.next_word (p : Parser) : Option String × Parser :=
  match p.words[p.index]? with
  | some w => (some w, { p with index := p.index + 1 })
  | none => (none, p)

/-- `Parser::ident`: consume one word and compare lowercased forms; the
error string is the same regardless of which keyword was expected. -/
def Parser.ident (kw : String) (p : Parser) : Except String Unit × Parser :=
  match p.next_word with
  | (w, p') =>
    if w.map toLowercase = some (toLowercase kw) then (.ok (), p')
    else (.error "Expecting REM at beginning of line", p')

/-- `Parser::num`: consume one word and parse it as a `u32`. -/
def Parser.num (p : Parser) : Except String Nat × Parser :=
  match p.next_word with
  | (none, p') => (.error "Expecting day of month, found end of line", p')
  | (some w, p') => (parseUInt (2 ^ 32) w, p')

/-- The month-name table of `Parser::date` (input already lowercased). -/
def parseMonth : String → Option Month
  | "jan" => some .January
  | "feb" => some .February
  | "mar" => some .March
  | "apr" => some .April
  | "may" => some .May
  | "jun" => some .June
  | "jul" => some .July
  | "aug" => some .August
  | "sep" => some .September
  | "oct" => some .October
  | "nov" => some .November
  | "dec" => some .December
  | _ => none

/-- `Parser::date`: month word, then `num() as u8`, then `num() as u16`. -/
def Parser.date (p : Parser) : Except String Date × Parser :=
  match p.next_word with
  | (none, p₁) => (.error "Expecting date, found end of line", p₁)
  | (some w, p₁) =>
    match parseMonth (toLowercase w) with
    | none => (.error ("Invalid month " ++ toLowercase w), p₁)
    | some month =>
      match p₁.num with
      | (.error e, p₂) => (.error e, p₂)
      | (.ok day, p₂) =>
        match p₂.num with
        | (.error e, p₃) => (.error e, p₃)
        | (.ok year, p₃) =>
          (.ok { day := day % 2 ^ 8, month, year := year % 2 ^ 16 }, p₃)

/-- Body of `Parser::time_num` after the word has been read: split on `:`,
parse the first two pieces as `u8`, ignore any further pieces.  The first
`.error "Expecting hour, ..."` branch is unreachable (a split is never
empty), mirroring the always-`Some` first `parts.next()` of the source. -/
def timeOfWord (w : String) : Except String Time :=
  match splitColon w with
  | [] => .error "Expecting hour, found end of line"
  | h :: rest =>
    match parseUInt (2 ^ 8) h with
    | .error e => .error e
    | .ok hour =>
      match rest with
      | [] => .error "Expecting hour, found end of line"
      | m :: _ =>
        match parseUInt (2 ^ 8) m with
        | .error e => .error e
        | .ok minute => .ok { hour, minute }

/-- `Parser::time_num`: consume one word and read it as `hh:mm`. -/
def Parser.time_num (p : Parser) : Except String Time × Parser :=
  match p.next_word with
  | (none, p₁) => (.error "Expecting time, found end of line", p₁)
  | (some w, p₁) => (timeOfWord w, p₁)

/-- `Parser::time`: `AT` keyword then a time literal. -/
def Parser.time (p : Parser) : Except String Time × Parser :=
  match p.ident "AT" with
  | (.error e, p₁) => (.error e, p₁)
  | (.ok _, p₁) => p₁.time_num

/-- `Parser::duration`: `DURATION` keyword then a time literal, converted
to seconds as `hour*60*60 + minute*60` (`Duration::from_secs`). -/
def Parser.duration (p : Parser) : Except String Nat × Parser :=
  match p.ident "DURATION" with
  | (.error e, p₁) => (.error e, p₁)
  | (.ok _, p₁) =>
    match p₁.time_num with
    | (.error e, p₂) => (.error e, p₂)
    | (.ok t, p₂) => (.ok (t.hour * 60 * 60 + t.minute * 60), p₂)

/-- `Parser::message`: `MSG` keyword, then all remaining words joined by
single spaces. -/
def Parser.message (p : Parser) : Except String String × Parser :=
  match p.ident "MSG" with
  | (.error e, p₁) => (.error e, p₁)
  | (.ok _, p₁) => (.ok (joinSpace (p₁.words.drop p₁.index)), p₁)

/-- `Parser::entry`: `REM` date time duration message. -/
def Parser.entry (p : Parser) : Except String Entry × Parser :=
  match p.ident "REM" with
  | (.error e, p₁) => (.error e, p₁)
  | (.ok _, p₁) =>
    match p₁.date with
    | (.error e, p₂) => (.error e, p₂)
    | (.ok date, p₂) =>
      match p₂.time with
      | (.error e, p₃) => (.error e, p₃)
      | (.ok time, p₃) =>
        match p₃.duration with
        | (.error e, p₄) => (.error e, p₄)
        | (.ok duration, p₄) =>
          match p₄.message with
          | (.error e, p₅) => (.error e, p₅)
          | (.ok msg, p₅) => (.ok { date, duration, msg, time }, p₅)

/-- One iteration of the driver loop: parse a line, `Ok` kept, `Err`
discarded. -/
def parseLine (line : String) : Option Entry :=
  match (Parser.new line).entry with
  | (.ok e, _) => some e
  | (.error _, _) => none

/-- The driver `parse`: walk the line-read results in order; a failed read
aborts with its error string, a successfully read line contributes its
entry exactly when its grammar parse succeeds. -/
def parse : List (Except String String) → Except String (List Entry)
  | [] => .ok []
  | .error e :: _ => .error e
  | .ok line :: rest =>
    match parse rest with
    | .error e => .error e
    | .ok es =>
      .ok (match parseLine line with
           | some entry => entry :: es
           | none => es)

/-- The successfully read lines of a stream of line-read results. -/
def okLines : List (Except String String) → List String :=
  List.filterMap fun r =>
    match r with
    | .ok line => some line
    | .error _ => none

/-- The word positions at which the grammar of `Parser::entry` matches
case-insensitively: the keywords `REM` (0), `AT` (4), `DURATION` (6),
`MSG` (8) and the month name (1). -/
def kwPos (i : Nat) : Prop :=
  i = 0 ∨ i = 1 ∨ i = 4 ∨ i = 6 ∨ i = 8

/-- Cursor invariant of `Parser`: the index never passes the end of the
word list, so the slice `words[index..]` taken in `message` is in bounds. -/
def Parser.inv (p : Parser) : Prop :=
  p.index ≤ p.words.length

theorem next_word_none {p : Parser} (h : p.words[p.index]? = none) :
    p.next_word = (none, p) := by
  simp [Parser.next_word, h]

theorem next_word_some {p : Parser} {w : String}
    (h : p.words[p.index]? = some w) :
    p.next_word = (some w, ⟨p.index + 1, p.words⟩) := by
  simp [Parser.next_word, h]

theorem ident_none {p : Parser} {kw : String}
    (h : p.words[p.index]? = none) :
    p.ident kw = (.error "Expecting REM at beginning of line", p) := by
  simp [Parser.ident, next_word_none h]

theorem ident_some {p : Parser} {kw w : String}
    (h : p.words[p.index]? = some w) :
    p.ident kw = ((if toLowercase w = toLowercase kw then .ok () else
      .error "Expecting REM at beginning of line"), ⟨p.index + 1, p.words⟩) := by
  by_cases hc : toLowercase w = toLowercase kw <;>
    simp [Parser.ident, next_word_some h, hc]

theorem num_none {p : Parser} (h : p.words[p.index]? = none) :
    p.num = (.error "Expecting day of month, found end of line", p) := by
  simp [Parser.num, next_word_none h]

theorem num_some {p : Parser} {w : String}
    (h : p.words[p.index]? = some w) :
    p.num = (parseUInt (2 ^ 32) w, ⟨p.index + 1, p.words⟩) := by
  simp [Parser.num, next_word_some h]

theorem time_num_none {p : Parser} (h : p.words[p.index]? = none) :
    p.time_num = (.error "Expecting time, found end of line", p) := by
  simp [Parser.time_num, next_word_none h]

theorem time_num_some {p : Parser} {w : String}
    (h : p.words[p.index]? = some w) :
    p.time_num = (timeOfWord w, ⟨p.index + 1, p.words⟩) := by
  simp [Parser.time_num, next_word_some h]

theorem ident_ok {p p' : Parser} {kw : String} {u : Unit}
    (h : p.ident kw = (.ok u, p')) :
    ∃ w, p.words[p.index]? = some w ∧ toLowercase w = toLowercase kw ∧
      p' = ⟨p.index + 1, p.words⟩ := by
  cases hw : p.words[p.index]? with
  | none => rw [ident_none hw] at h; simp at h
  | some w =>
    rw [ident_some hw] at h
    by_cases hc : toLowercase w = toLowercase kw
    · rw [if_pos hc] at h
      exact ⟨w, rfl, hc, by simp [Prod.ext_iff] at h; exact h.symm⟩
    · simp [hc] at h

theorem num_ok {p p' : Parser} {n : Nat} (h : p.num = (.ok n, p')) :
    ∃ w, p.words[p.index]? = some w ∧ parseUInt (2 ^ 32) w = .ok n ∧
      p' = ⟨p.index + 1, p.words⟩ := by
  cases hw : p.words[p.index]? with
  | none => rw [num_none hw] at h; simp at h
  | some w =>
    rw [num_some hw] at h
    simp [Prod.ext_iff] at h
    exact ⟨w, rfl, h.1, h.2.symm⟩

theorem time_num_ok {p p' : Parser} {t : Time}
    (h : p.time_num = (.ok t, p')) :
    ∃ w, p.words[p.index]? = some w ∧ timeOfWord w = .ok t ∧
      p' = ⟨p.index + 1, p.words⟩ := by
  cases hw : p.words[p.index]? with
  | none => rw [time_num_none hw] at h; simp at h
  | some w =>
    rw [time_num_some hw] at h
    simp [Prod.ext_iff] at h
    exact ⟨w, rfl, h.1, h.2.symm⟩

theorem date_ok {p p' : Parser} {d : Date} (h : p.date = (.ok d, p')) :
    ∃ wm m w₁ n₁ w₂ n₂,
      p.words[p.index]? = some wm ∧ parseMonth (toLowercase wm) = some m ∧
      p.words[p.index + 1]? = some w₁ ∧ parseUInt (2 ^ 32) w₁ = .ok n₁ ∧
      p.words[p.index + 2]? = some w₂ ∧ parseUInt (2 ^ 32) w₂ = .ok n₂ ∧
      d = ⟨n₁ % 2 ^ 8, m, n₂ % 2 ^ 16⟩ ∧ p' = ⟨p.index + 3, p.words⟩ := by
  unfold Parser.date at h
  cases hw : p.words[p.index]? with
  | none => rw [next_word_none hw] at h; simp at h
  | some wm =>
    rw [next_word_some hw] at h
    dsimp only at h
    cases hm : parseMonth (toLowercase wm) with
    | none => rw [hm] at h; simp at h
    | some m =>
      rw [hm] at h
      dsimp only at h
      cases hw₁ : p.words[p.index + 1]? with
      | none =>
        rw [num_none (p := ⟨p.index + 1, p.words⟩) hw₁] at h; simp at h
      | some w₁ =>
        rw [num_some (p := ⟨p.index + 1, p.words⟩) hw₁] at h
        dsimp only at h
        cases hn₁ : parseUInt (2 ^ 32) w₁ with
        | error e => rw [hn₁] at h; simp at h
        | ok n₁ =>
          rw [hn₁] at h
          dsimp only at h
          cases hw₂ : p.words[p.index + 1 + 1]? with
          | none =>
            rw [num_none (p := ⟨p.index + 1 + 1, p.words⟩) hw₂] at h; simp at h
          | some w₂ =>
            rw [num_some (p := ⟨p.index + 1 + 1, p.words⟩) hw₂] at h
            dsimp only at h
            cases hn₂ : parseUInt (2 ^ 32) w₂ with
            | error e => rw [hn₂] at h; simp at h
            | ok n₂ =>
              rw [hn₂] at h
              dsimp only at h
              simp only [Prod.mk.injEq, Except.ok.injEq] at h
              exact ⟨wm, m, w₁, n₁, w₂, n₂, rfl, hm, rfl, hn₁, rfl, hn₂,
                h.1.symm, h.2.symm⟩

theorem time_ok {p p' : Parser} {t : Time} (h : p.time = (.ok t, p')) :
    ∃ wk w, p.words[p.index]? = some wk ∧ toLowercase wk = toLowercase "AT" ∧
      p.words[p.index + 1]? = some w ∧ timeOfWord w = .ok t ∧
      p' = ⟨p.index + 2, p.words⟩ := by
  unfold Parser.time at h
  rcases hi : Parser.ident "AT" p with ⟨ri, q⟩
  rw [hi] at h
  cases ri with
  | error e => simp at h
  | ok u =>
    obtain ⟨wk, hk, hkl, hq⟩ := ident_ok hi
    subst hq
    obtain ⟨w, hw, ht, hp'⟩ := time_num_ok h
    exact ⟨wk, w, hk, hkl, hw, ht, hp'⟩

theorem duration_ok {p p' : Parser} {d : Nat} (h : p.duration = (.ok d, p')) :
    ∃ wk w t, p.words[p.index]? = some wk ∧
      toLowercase wk = toLowercase "DURATION" ∧
      p.words[p.index + 1]? = some w ∧ timeOfWord w = .ok t ∧
      d = t.hour * 60 * 60 + t.minute * 60 ∧ p' = ⟨p.index + 2, p.words⟩ := by
  unfold Parser.duration at h
  rcases hi : Parser.ident "DURATION" p with ⟨ri, q⟩
  rw [hi] at h
  cases ri with
  | error e => simp at h
  | ok u =>
    obtain ⟨wk, hk, hkl, hq⟩ := ident_ok hi
    subst hq
    dsimp only at h
    rcases htn : Parser.time_num ⟨p.index + 1, p.words⟩ with ⟨rt, q₂⟩
    rw [htn] at h
    cases rt with
    | error e => simp at h
    | ok t =>
      simp only [Prod.mk.injEq, Except.ok.injEq] at h
      obtain ⟨w, hw, ht, hp'⟩ := time_num_ok htn
      exact ⟨wk, w, t, hk, hkl, hw, ht, h.1.symm, h.2 ▸ hp'⟩

theorem message_ok {p p' : Parser} {s : String}
    (h : p.message = (.ok s, p')) :
    ∃ wk, p.words[p.index]? = some wk ∧ toLowercase wk = toLowercase "MSG" ∧
      s = joinSpace (p.words.drop (p.index + 1)) ∧
      p' = ⟨p.index + 1, p.words⟩ := by
  unfold Parser.message at h
  rcases hi : Parser.ident "MSG" p with ⟨ri, q⟩
  rw [hi] at h
  cases ri with
  | error e => simp at h
  | ok u =>
    obtain ⟨wk, hk, hkl, hq⟩ := ident_ok hi
    subst hq
    dsimp only at h
    simp only [Prod.mk.injEq, Except.ok.injEq] at h
    exact ⟨wk, hk, hkl, h.1.symm, h.2.symm⟩

/-- Success of `Parser::entry` from a fresh cursor determines the whole
shape of the word list and every field of the resulting entry. -/
theorem entry_ok {ws : List String} {e : Entry} {p' : Parser}
    (h : Parser.entry ⟨0, ws⟩ = (.ok e, p')) :
    ∃ w₀ wm m w₁ n₁ w₂ n₂ w₄ w₅ t w₆ w₇ td w₈,
      ws[0]? = some w₀ ∧ toLowercase w₀ = toLowercase "REM" ∧
      ws[1]? = some wm ∧ parseMonth (toLowercase wm) = some m ∧
      ws[2]? = some w₁ ∧ parseUInt (2 ^ 32) w₁ = .ok n₁ ∧
      ws[3]? = some w₂ ∧ parseUInt (2 ^ 32) w₂ = .ok n₂ ∧
      ws[4]? = some w₄ ∧ toLowercase w₄ = toLowercase "AT" ∧
      ws[5]? = some w₅ ∧ timeOfWord w₅ = .ok t ∧
      ws[6]? = some w₆ ∧ toLowercase w₆ = toLowercase "DURATION" ∧
      ws[7]? = some w₇ ∧ timeOfWord w₇ = .ok td ∧
      ws[8]? = some w₈ ∧ toLowercase w₈ = toLowercase "MSG" ∧
      e = ⟨⟨n₁ % 2 ^ 8, m, n₂ % 2 ^ 16⟩,
           td.hour * 60 * 60 + td.minute * 60,
           joinSpace (ws.drop 9), t⟩ ∧
      p' = ⟨9, ws⟩ := by
  unfold Parser.entry at h
  rcases h₀ : Parser.ident "REM" ⟨0, ws⟩ with ⟨r₀, q₀⟩
  rw [h₀] at h
  cases r₀ with
  | error e₀ => simp at h
  | ok u =>
    obtain ⟨w₀, hw₀, hl₀, hq₀⟩ := ident_ok h₀
    subst hq₀
    dsimp only at h
    rcases h₁ : Parser.date ⟨0 + 1, ws⟩ with ⟨r₁, q₁⟩
    rw [h₁] at h
    cases r₁ with
    | error e₁ => simp at h
    | ok dt =>
      obtain ⟨wm, m, w₁, n₁, w₂, n₂, hwm, hm, hw₁, hn₁, hw₂, hn₂, hdt, hq₁⟩ :=
        date_ok h₁
      subst hq₁
      dsimp only at h
      rcases h₂ : Parser.time ⟨0 + 1 + 3, ws⟩ with ⟨r₂, q₂⟩
      rw [h₂] at h
      cases r₂ with
      | error e₂ => simp at h
      | ok t =>
        obtain ⟨w₄, w₅, hw₄, hl₄, hw₅, ht₅, hq₂⟩ := time_ok h₂
        subst hq₂
        dsimp only at h
        rcases h₃ : Parser.duration ⟨0 + 1 + 3 + 2, ws⟩ with ⟨r₃, q₃⟩
        rw [h₃] at h
        cases r₃ with
        | error e₃ => simp at h
        | ok dur =>
          obtain ⟨w₆, w₇, td, hw₆, hl₆, hw₇, ht₇, hdur, hq₃⟩ := duration_ok h₃
          subst hq₃
          dsimp only at h
          rcases h₄ : Parser.message ⟨0 + 1 + 3 + 2 + 2, ws⟩ with ⟨r₄, q₄⟩
          rw [h₄] at h
          cases r₄ with
          | error e₄ => simp at h
          | ok msg =>
            obtain ⟨w₈, hw₈, hl₈, hmsg, hq₄⟩ := message_ok h₄
            subst hq₄
            dsimp only at h
            simp only [Prod.mk.injEq, Except.ok.injEq] at h
            refine ⟨w₀, wm, m, w₁, n₁, w₂, n₂, w₄, w₅, t, w₆, w₇, td, w₈,
              hw₀, hl₀, hwm, hm, hw₁, hn₁, hw₂, hn₂, hw₄, hl₄, hw₅, ht₅,
              hw₆, hl₆, hw₇, ht₇, hw₈, hl₈, ?_, ?_⟩
            · rw [← h.1, hdt, hdur, hmsg]
            · rw [← h.2]

/-- C1: the line "REM Mar 30 2018 AT 19:00 DURATION 1:15 MSG Event name"
parses to exactly one entry with date 30 March 2018, time 19:00, duration
4500 seconds and message "Event name". -/
theorem parse_example :
    parse [.ok "REM Mar 30 2018 AT 19:00 DURATION 1:15 MSG Event name"] =
      .ok [{ date := { day := 30, month := .March, year := 2018 }
             duration := 4500
             msg := "Event name"
             time := { hour := 19, minute := 0 } }] := by
  rfl

/-- C2: when every line read succeeds, `parse` returns `Ok`; each line
contributes its entry exactly when its grammar parse succeeds, failing
lines contribute nothing and parsing continues with the rest. -/
theorem parse_swallows_line_failures (lines : List String) :
    parse (lines.map .ok) = .ok (lines.filterMap parseLine) := by
  induction lines with
  | nil => rfl
  | cons l rest ih =>
    cases hpl : parseLine l <;>
      simp [parse, ih, List.filterMap_cons, hpl]

/-- C5: if some line read fails, `parse` returns the (first) read error as
a single string-valued error; no entries accompany it, however many lines
parsed successfully before the failure. -/
theorem parse_stream_error_aborts (pre : List String) (e : String)
    (rest : List (Except String String)) :
    parse (pre.map .ok ++ .error e :: rest) = .error e := by
  induction pre with
  | nil => rfl
  | cons l pre ih => simp [parse, ih]

/-- C8: whenever `parse` returns a list of entries, that list is exactly
the order-preserving `filterMap` of the per-line parser over the source
lines: entries appear in source-line order, with no reordering. -/
theorem parse_preserves_order (rs : List (Except String String))
    (es : List Entry) (h : parse rs = .ok es) :
    es = (okLines rs).filterMap parseLine := by
  induction rs generalizing es with
  | nil =>
    simp only [parse, Except.ok.injEq] at h
    simp [okLines, ← h]
  | cons r rs ih =>
    cases r with
    | error e => simp [parse] at h
    | ok line =>
      rw [parse] at h
      cases hp : parse rs with
      | error e => rw [hp] at h; simp at h
      | ok es' =>
        rw [hp] at h
        dsimp only at h
        simp only [Except.ok.injEq] at h
        have hes := ih es' hp
        have hok : okLines (.ok line :: rs) = line :: okLines rs := by
          simp [okLines]
        cases hpl : parseLine line with
        | none =>
          rw [hpl] at h
          dsimp only at h
          subst h
          rw [hok, List.filterMap_cons, hpl]
          exact hes
        | some en =>
          rw [hpl] at h
          dsimp only at h
          subst h
          rw [hok, List.filterMap_cons, hpl, hes]

theorem parse_preserves_order_witness :
    ([] : List Entry) = (okLines [Except.ok "x"]).filterMap parseLine :=
  parse_preserves_order [Except.ok "x"] [] rfl

/-- C4: every successfully parsed line has its entry's duration equal to
`hour*3600 + minute*60` for the time literal following `DURATION`
(the word at position 7). -/
theorem entry_duration_seconds (line : String) (e : Entry)
    (h : parseLine line = some e) :
    ∃ w t, (Parser.new line).words[7]? = some w ∧ timeOfWord w = .ok t ∧
      e.duration = t.hour * 3600 + t.minute * 60 := by
  unfold parseLine at h
  rcases he : (Parser.new line).entry with ⟨r, q⟩
  rw [he] at h
  cases r with
  | error e' => simp at h
  | ok e' =>
    dsimp only at h
    simp only [Option.some.injEq] at h
    have he' : Parser.entry ⟨0, (Parser.new line).words⟩ = (.ok e', q) := he
    obtain ⟨w₀, wm, m, w₁, n₁, w₂, n₂, w₄, w₅, t, w₆, w₇, td, w₈,
      _, _, _, _, _, _, _, _, _, _, _, _, _, _, hw₇, ht₇, _, _, hent, _⟩ :=
      entry_ok he'
    refine ⟨w₇, td, hw₇, ht₇, ?_⟩
    rw [← h, hent]
    dsimp only
    ring

theorem entry_duration_seconds_witness :
    ∃ w t,
      (Parser.new "REM Mar 30 2018 AT 19:00 DURATION 1:15 MSG x").words[7]? =
        some w ∧
      timeOfWord w = .ok t ∧
      (⟨⟨30, .March, 2018⟩, 4500, "x", ⟨19, 0⟩⟩ : Entry).duration =
        t.hour * 3600 + t.minute * 60 :=
  entry_duration_seconds "REM Mar 30 2018 AT 19:00 DURATION 1:15 MSG x"
    ⟨⟨30, .March, 2018⟩, 4500, "x", ⟨19, 0⟩⟩ rfl

/-- C7: `message` succeeds exactly when the word at the cursor is `MSG`
up to case; on success the message is the remaining words joined by
single spaces, and with zero remaining words it is `""`, not a failure. -/
theorem message_joins_rest (p : Parser) :
    ((∃ s p', p.message = (.ok s, p')) ↔
      (p.words[p.index]?).map toLowercase = some (toLowercase "MSG")) ∧
    (∀ s p', p.message = (.ok s, p') →
      s = joinSpace (p.words.drop (p.index + 1))) ∧
    (∀ s p', p.message = (.ok s, p') → p.words.length ≤ p.index + 1 →
      s = "") := by
  refine ⟨⟨?_, ?_⟩, ?_, ?_⟩
  · rintro ⟨s, p', h⟩
    obtain ⟨wk, hk, hkl, -, -⟩ := message_ok h
    rw [hk]
    simp [hkl]
  · intro hm
    cases hw : p.words[p.index]? with
    | none => rw [hw] at hm; simp at hm
    | some w =>
      rw [hw] at hm
      simp only [Option.map_some', Option.some.injEq] at hm
      unfold Parser.message
      rw [ident_some hw, if_pos hm]
      exact ⟨_, _, rfl⟩
  · intro s p' h
    obtain ⟨wk, hk, hkl, hs, hp'⟩ := message_ok h
    exact hs
  · intro s p' h hlen
    obtain ⟨wk, hk, hkl, hs, hp'⟩ := message_ok h
    rw [hs, List.drop_eq_nil_of_le hlen]
    rfl

theorem message_joins_rest_witness :
    ("" : String) = joinSpace ((Parser.mk 0 ["MSG"]).words.drop (0 + 1)) :=
  (message_joins_rest ⟨0, ["MSG"]⟩).2.1 "" ⟨1, ["MSG"]⟩ rfl

theorem parseUIntPos_lt {bound : Nat} {cs : List Char} {a n : Nat}
    (h : parseUIntPos bound cs a = .ok n) (ha : a < bound) : n < bound := by
  induction cs generalizing a with
  | nil =>
    simp only [parseUIntPos, Except.ok.injEq] at h
    omega
  | cons c cs ih =>
    unfold parseUIntPos at h
    by_cases hd : c.isDigit
    · rw [if_pos hd] at h
      by_cases hb : a * 10 + (c.toNat - 48) < bound
      · rw [if_pos hb] at h
        exact ih h hb
      · rw [if_neg hb] at h
        simp at h
    · rw [if_neg hd] at h
      simp at h

/-- A successful `parse::<uN>` always yields a value below the bound. -/
theorem parseUInt_lt {bound : Nat} {s : String} {n : Nat} (hb : 0 < bound)
    (h : parseUInt bound s = .ok n) : n < bound := by
  unfold parseUInt at h
  split at h
  · simp at h
  · simp at h
  · simp at h
  · exact parseUIntPos_lt h hb
  · exact parseUIntPos_lt h hb

/-- C3 counterexample: the day literal "300" parses as an integer (as a
`u32`) but does not fit 8 bits, and the line still produces an entry —
with the truncated day `300 % 256 = 44`, not a rejection. -/
theorem day_truncation_cex :
    parse [.ok "REM Mar 300 2018 AT 19:00 DURATION 1:15 MSG x"] =
      .ok [{ date := { day := 44, month := .March, year := 2018 }
             duration := 4500
             msg := "x"
             time := { hour := 19, minute := 0 } }] ∧
    parseUInt (2 ^ 32) "300" = .ok 300 := ⟨rfl, rfl⟩

/-- C3 amended: day and year tokens are accepted exactly when they parse
as non-negative base-10 integers fitting 32 bits (the `u32` parse of
`num`), and the `Date` stores them reduced modulo `2^8` and `2^16`
respectively, so literals exceeding the declared widths are truncated. -/
theorem date_truncates_to_width :
    (∀ (p p' : Parser) (d : Date), p.date = (.ok d, p') →
      ∃ w₁ n₁ w₂ n₂,
        p.words[p.index + 1]? = some w₁ ∧ parseUInt (2 ^ 32) w₁ = .ok n₁ ∧
        n₁ < 2 ^ 32 ∧
        p.words[p.index + 2]? = some w₂ ∧ parseUInt (2 ^ 32) w₂ = .ok n₂ ∧
        n₂ < 2 ^ 32 ∧
        d.day = n₁ % 2 ^ 8 ∧ d.year = n₂ % 2 ^ 16) ∧
    (∀ (p : Parser) (wm : String) (m : Month) (w₁ : String) (n₁ : Nat)
        (w₂ : String) (n₂ : Nat),
      p.words[p.index]? = some wm → parseMonth (toLowercase wm) = some m →
      p.words[p.index + 1]? = some w₁ → parseUInt (2 ^ 32) w₁ = .ok n₁ →
      p.words[p.index + 2]? = some w₂ → parseUInt (2 ^ 32) w₂ = .ok n₂ →
      p.date = (.ok ⟨n₁ % 2 ^ 8, m, n₂ % 2 ^ 16⟩, ⟨p.index + 3, p.words⟩)) := by
  constructor
  · intro p p' d h
    obtain ⟨wm, m, w₁, n₁, w₂, n₂, hwm, hm, hw₁, hn₁, hw₂, hn₂, hd, hp'⟩ :=
      date_ok h
    exact ⟨w₁, n₁, w₂, n₂, hw₁, hn₁, parseUInt_lt (by norm_num) hn₁,
      hw₂, hn₂, parseUInt_lt (by norm_num) hn₂, by rw [hd], by rw [hd]⟩
  · intro p wm m w₁ n₁ w₂ n₂ hwm hm hw₁ hn₁ hw₂ hn₂
    unfold Parser.date
    rw [next_word_some hwm]
    dsimp only
    rw [hm]
    dsimp only
    rw [num_some (p := ⟨p.index + 1, p.words⟩) hw₁]
    dsimp only
    rw [hn₁]
    dsimp only
    rw [num_some (p := ⟨p.index + 1 + 1, p.words⟩) hw₂]
    dsimp only
    rw [hn₂]

theorem date_truncates_to_width_witness :
    (Parser.mk 0 ["Mar", "300", "2018"]).date =
      (.ok ⟨300 % 2 ^ 8, Month.March, 2018 % 2 ^ 16⟩,
       ⟨0 + 3, ["Mar", "300", "2018"]⟩) :=
  date_truncates_to_width.2 ⟨0, ["Mar", "300", "2018"]⟩ "Mar" .March
    "300" 300 "2018" 2018 rfl rfl rfl rfl rfl rfl

/-- C9 counterexample: the hour literal "300" parses as a non-negative
integer, yet the otherwise-valid line is rejected (no entry), while the
same line with hour 99 is accepted — so acceptance is not "whenever it
parses as a non-negative integer". -/
theorem hour_range_cex :
    parse [.ok "REM Mar 1 2020 AT 300:00 DURATION 1:00 MSG x"] = .ok [] ∧
    parseUInt (2 ^ 32) "300" = .ok 300 ∧
    parse [.ok "REM Mar 1 2020 AT 99:00 DURATION 1:00 MSG x"] =
      .ok [{ date := { day := 1, month := .March, year := 2020 }
             duration := 3600
             msg := "x"
             time := { hour := 99, minute := 0 } }] := ⟨rfl, rfl, rfl⟩

/-- C9 amended: a time-literal component (hour or minute) is accepted
exactly when it parses as a non-negative integer fitting 8 bits (the `u8`
parse); within that range no further validation is applied. -/
theorem time_components_u8 :
    (∀ (w : String) (t : Time), timeOfWord w = .ok t →
      ∃ hs ms rest, splitColon w = hs :: ms :: rest ∧
        parseUInt (2 ^ 8) hs = .ok t.hour ∧
        parseUInt (2 ^ 8) ms = .ok t.minute ∧
        t.hour < 2 ^ 8 ∧ t.minute < 2 ^ 8) ∧
    (∀ (w hs ms : String) (rest : List String) (hn mn : Nat),
      splitColon w = hs :: ms :: rest →
      parseUInt (2 ^ 8) hs = .ok hn → parseUInt (2 ^ 8) ms = .ok mn →
      timeOfWord w = .ok ⟨hn, mn⟩) := by
  constructor
  · intro w t h
    unfold timeOfWord at h
    rcases hsc : splitColon w with _ | ⟨hs, rest⟩
    · rw [hsc] at h
      simp at h
    · rw [hsc] at h
      dsimp only at h
      cases hh : parseUInt (2 ^ 8) hs with
      | error e => rw [hh] at h; simp at h
      | ok hn =>
        rw [hh] at h
        dsimp only at h
        cases rest with
        | nil => simp at h
        | cons ms rest' =>
          dsimp only at h
          cases hm : parseUInt (2 ^ 8) ms with
          | error e => rw [hm] at h; simp at h
          | ok mn =>
            rw [hm] at h
            simp only [Except.ok.injEq] at h
            subst h
            exact ⟨hs, ms, rest', rfl, hh, hm,
              parseUInt_lt (by norm_num) hh, parseUInt_lt (by norm_num) hm⟩
  · intro w hs ms rest hn mn hsc hh hm
    unfold timeOfWord
    rw [hsc]
    dsimp only
    rw [hh]
    dsimp only
    rw [hm]

theorem time_components_u8_witness : timeOfWord "99:0" = .ok ⟨99, 0⟩ :=
  time_components_u8.2 "99:0" "99" "0" [] 99 0 rfl rfl rfl

theorem lt_of_getElem?_some {l : List String} {i : Nat} {w : String}
    (h : l[i]? = some w) : i < l.length := by
  by_contra hc
  rw [List.getElem?_eq_none (by omega)] at h
  simp at h

theorem inv_next_word {p : Parser} (h : p.inv) : p.next_word.2.inv := by
  cases hw : p.words[p.index]? with
  | none => rw [next_word_none hw]; exact h
  | some w => rw [next_word_some hw]; exact lt_of_getElem?_some hw

theorem inv_ident {p : Parser} (kw : String) (h : p.inv) :
    (p.ident kw).2.inv := by
  cases hw : p.words[p.index]? with
  | none => rw [ident_none hw]; exact h
  | some w => rw [ident_some hw]; exact lt_of_getElem?_some hw

theorem inv_num {p : Parser} (h : p.inv) : p.num.2.inv := by
  cases hw : p.words[p.index]? with
  | none => rw [num_none hw]; exact h
  | some w => rw [num_some hw]; exact lt_of_getElem?_some hw

theorem inv_time_num {p : Parser} (h : p.inv) : p.time_num.2.inv := by
  cases hw : p.words[p.index]? with
  | none => rw [time_num_none hw]; exact h
  | some w => rw [time_num_some hw]; exact lt_of_getElem?_some hw

theorem inv_date {p : Parser} (h : p.inv) : p.date.2.inv := by
  unfold Parser.date
  cases hw : p.words[p.index]? with
  | none => rw [next_word_none hw]; exact h
  | some w =>
    rw [next_word_some hw]
    dsimp only
    have h₁ : (Parser.mk (p.index + 1) p.words).inv := lt_of_getElem?_some hw
    cases hm : parseMonth (toLowercase w) with
    | none => exact h₁
    | some m =>
      dsimp only
      rcases hn : Parser.num ⟨p.index + 1, p.words⟩ with ⟨rn, q⟩
      have hq : q.inv := by
        have := inv_num (p := ⟨p.index + 1, p.words⟩) h₁
        rw [hn] at this
        exact this
      cases rn with
      | error e => exact hq
      | ok d =>
        dsimp only
        rcases hn₂ : q.num with ⟨rn₂, q₂⟩
        have hq₂ : q₂.inv := by
          have := inv_num hq
          rw [hn₂] at this
          exact this
        cases rn₂ with
        | error e => exact hq₂
        | ok y => exact hq₂

theorem inv_time {p : Parser} (h : p.inv) : p.time.2.inv := by
  unfold Parser.time
  rcases hi : p.ident "AT" with ⟨r, q⟩
  have hq : q.inv := by
    have := inv_ident "AT" h
    rw [hi] at this
    exact this
  cases r with
  | error e => exact hq
  | ok u => exact inv_time_num hq

theorem inv_duration {p : Parser} (h : p.inv) : p.duration.2.inv := by
  unfold Parser.duration
  rcases hi : p.ident "DURATION" with ⟨r, q⟩
  have hq : q.inv := by
    have := inv_ident "DURATION" h
    rw [hi] at this
    exact this
  cases r with
  | error e => exact hq
  | ok u =>
    dsimp only
    rcases ht : q.time_num with ⟨rt, q₂⟩
    have hq₂ : q₂.inv := by
      have := inv_time_num hq
      rw [ht] at this
      exact this
    cases rt with
    | error e => exact hq₂
    | ok t => exact hq₂

theorem inv_message {p : Parser} (h : p.inv) : p.message.2.inv := by
  unfold Parser.message
  rcases hi : p.ident "MSG" with ⟨r, q⟩
  have hq : q.inv := by
    have := inv_ident "MSG" h
    rw [hi] at this
    exact this
  cases r with
  | error e => exact hq
  | ok u => exact hq

theorem inv_entry {p : Parser} (h : p.inv) : p.entry.2.inv := by
  unfold Parser.entry
  rcases h₀ : p.ident "REM" with ⟨r₀, q₀⟩
  have hq₀ : q₀.inv := by
    have := inv_ident "REM" h
    rw [h₀] at this
    exact this
  cases r₀ with
  | error e => exact hq₀
  | ok u =>
    dsimp only
    rcases h₁ : q₀.date with ⟨r₁, q₁⟩
    have hq₁ : q₁.inv := by
      have := inv_date hq₀
      rw [h₁] at this
      exact this
    cases r₁ with
    | error e => exact hq₁
    | ok dt =>
      dsimp only
      rcases h₂ : q₁.time with ⟨r₂, q₂⟩
      have hq₂ : q₂.inv := by
        have := inv_time hq₁
        rw [h₂] at this
        exact this
      cases r₂ with
      | error e => exact hq₂
      | ok t =>
        dsimp only
        rcases h₃ : q₂.duration with ⟨r₃, q₃⟩
        have hq₃ : q₃.inv := by
          have := inv_duration hq₂
          rw [h₃] at this
          exact this
        cases r₃ with
        | error e => exact hq₃
        | ok dur =>
          dsimp only
          rcases h₄ : q₃.message with ⟨r₄, q₄⟩
          have hq₄ : q₄.inv := by
            have := inv_message hq₃
            rw [h₄] at this
            exact this
          cases r₄ with
          | error e => exact hq₄
          | ok msg => exact hq₄

/-- C10: a fresh parser satisfies `index ≤ words.length`; `next_word`
advances the index only when it returns a word; and every operation
preserves the invariant, so the slice `words[index..]` taken by `message`
is always in bounds. -/
theorem cursor_invariant :
    (∀ line, (Parser.new line).inv) ∧
    (∀ p : Parser, p.inv →
      p.next_word.2.inv ∧
      (p.next_word.1.isSome → p.next_word.2.index = p.index + 1) ∧
      (p.next_word.1 = none → p.next_word.2 = p) ∧
      (∀ kw, (p.ident kw).2.inv) ∧
      p.num.2.inv ∧ p.date.2.inv ∧ p.time_num.2.inv ∧
      p.time.2.inv ∧ p.duration.2.inv ∧ p.message.2.inv ∧
      p.entry.2.inv ∧ p.index ≤ p.words.length) := by
  constructor
  · intro line
    exact Nat.zero_le _
  · intro p h
    refine ⟨inv_next_word h, ?_, ?_, fun kw => inv_ident kw h, inv_num h,
      inv_date h, inv_time_num h, inv_time h, inv_duration h,
      inv_message h, inv_entry h, h⟩
    · intro hs
      cases hw : p.words[p.index]? with
      | none => rw [next_word_none hw] at hs; simp at hs
      | some w => rw [next_word_some hw]
    · intro hn
      cases hw : p.words[p.index]? with
      | none => rw [next_word_none hw]
      | some w => rw [next_word_some hw] at hn; simp at hn

theorem cursor_invariant_witness :
    ((Parser.mk 0 ["MSG", "a"]).entry).2.inv :=
  ((cursor_invariant.2 ⟨0, ["MSG", "a"]⟩ (Nat.zero_le _)).2.2.2.2.2.2.2.2.2.2).1

theorem ident_cong {ws ws' : List String} {n : Nat} (kw : String)
    (h : (ws[n]?).map toLowercase = (ws'[n]?).map toLowercase) :
    (Parser.ident kw ⟨n, ws⟩).1 = (Parser.ident kw ⟨n, ws'⟩).1 := by
  cases hw : ws[n]? with
  | none =>
    cases hw' : ws'[n]? with
    | none =>
      rw [ident_none (p := ⟨n, ws⟩) hw, ident_none (p := ⟨n, ws'⟩) hw']
    | some w' => rw [hw, hw'] at h; simp at h
  | some w =>
    cases hw' : ws'[n]? with
    | none => rw [hw, hw'] at h; simp at h
    | some w' =>
      rw [hw, hw'] at h
      simp only [Option.map_some', Option.some.injEq] at h
      rw [ident_some (p := ⟨n, ws⟩) hw, ident_some (p := ⟨n, ws'⟩) hw', h]

theorem num_cong {ws ws' : List String} {n : Nat}
    (h : ws[n]? = ws'[n]?) :
    (Parser.num ⟨n, ws⟩).1 = (Parser.num ⟨n, ws'⟩).1 := by
  cases hw : ws[n]? with
  | none =>
    rw [num_none (p := ⟨n, ws⟩) hw, num_none (p := ⟨n, ws'⟩) (h.symm.trans hw)]
  | some w =>
    rw [num_some (p := ⟨n, ws⟩) hw, num_some (p := ⟨n, ws'⟩) (h.symm.trans hw)]

theorem time_num_cong {ws ws' : List String} {n : Nat}
    (h : ws[n]? = ws'[n]?) :
    (Parser.time_num ⟨n, ws⟩).1 = (Parser.time_num ⟨n, ws'⟩).1 := by
  cases hw : ws[n]? with
  | none =>
    rw [time_num_none (p := ⟨n, ws⟩) hw,
        time_num_none (p := ⟨n, ws'⟩) (h.symm.trans hw)]
  | some w =>
    rw [time_num_some (p := ⟨n, ws⟩) hw,
        time_num_some (p := ⟨n, ws'⟩) (h.symm.trans hw)]

theorem date_cong {ws ws' : List String} {n : Nat}
    (h₀ : (ws[n]?).map toLowercase = (ws'[n]?).map toLowercase)
    (h₁ : ws[n + 1]? = ws'[n + 1]?) (h₂ : ws[n + 2]? = ws'[n + 2]?) :
    (Parser.date ⟨n, ws⟩).1 = (Parser.date ⟨n, ws'⟩).1 := by
  unfold Parser.date
  cases hw : ws[n]? with
  | none =>
    cases hw' : ws'[n]? with
    | none =>
      rw [next_word_none (p := ⟨n, ws⟩) hw,
          next_word_none (p := ⟨n, ws'⟩) hw']
    | some w' => rw [hw, hw'] at h₀; simp at h₀
  | some w =>
    cases hw' : ws'[n]? with
    | none => rw [hw, hw'] at h₀; simp at h₀
    | some w' =>
      rw [hw, hw'] at h₀
      simp only [Option.map_some', Option.some.injEq] at h₀
      rw [next_word_some (p := ⟨n, ws⟩) hw,
          next_word_some (p := ⟨n, ws'⟩) hw']
      dsimp only
      rw [h₀]
      cases hm : parseMonth (toLowercase w') with
      | none => rfl
      | some m =>
        dsimp only
        cases hv₁ : ws[n + 1]? with
        | none =>
          rw [num_none (p := ⟨n + 1, ws⟩) hv₁,
              num_none (p := ⟨n + 1, ws'⟩) (h₁.symm.trans hv₁)]
        | some v₁ =>
          rw [num_some (p := ⟨n + 1, ws⟩) hv₁,
              num_some (p := ⟨n + 1, ws'⟩) (h₁.symm.trans hv₁)]
          dsimp only
          cases hpv₁ : parseUInt (2 ^ 32) v₁ with
          | error e => rfl
          | ok n₁ =>
            dsimp only
            cases hv₂ : ws[n + 1 + 1]? with
            | none =>
              rw [num_none (p := ⟨n + 1 + 1, ws⟩) hv₂,
                  num_none (p := ⟨n + 1 + 1, ws'⟩) (h₂.symm.trans hv₂)]
            | some v₂ =>
              rw [num_some (p := ⟨n + 1 + 1, ws⟩) hv₂,
                  num_some (p := ⟨n + 1 + 1, ws'⟩) (h₂.symm.trans hv₂)]
              dsimp only
              cases hpv₂ : parseUInt (2 ^ 32) v₂ with
              | error e => rfl
              | ok n₂ => rfl

theorem time_cong {ws ws' : List String} {n : Nat}
    (h₀ : (ws[n]?).map toLowercase = (ws'[n]?).map toLowercase)
    (h₁ : ws[n + 1]? = ws'[n + 1]?) :
    (Parser.time ⟨n, ws⟩).1 = (Parser.time ⟨n, ws'⟩).1 := by
  unfold Parser.time
  rcases hi : Parser.ident "AT" ⟨n, ws⟩ with ⟨r, q⟩
  rcases hi' : Parser.ident "AT" ⟨n, ws'⟩ with ⟨r', q'⟩
  have hr : r = r' := by
    have := @ident_cong ws ws' n "AT" h₀
    rw [hi, hi'] at this
    exact this
  subst hr
  cases r with
  | error e => rfl
  | ok u =>
    obtain ⟨w, hw, hl, hq⟩ := ident_ok hi
    obtain ⟨w', hw', hl', hq'⟩ := ident_ok hi'
    subst hq
    subst hq'
    dsimp only
    exact time_num_cong h₁

theorem duration_cong {ws ws' : List String} {n : Nat}
    (h₀ : (ws[n]?).map toLowercase = (ws'[n]?).map toLowercase)
    (h₁ : ws[n + 1]? = ws'[n + 1]?) :
    (Parser.duration ⟨n, ws⟩).1 = (Parser.duration ⟨n, ws'⟩).1 := by
  unfold Parser.duration
  rcases hi : Parser.ident "DURATION" ⟨n, ws⟩ with ⟨r, q⟩
  rcases hi' : Parser.ident "DURATION" ⟨n, ws'⟩ with ⟨r', q'⟩
  have hr : r = r' := by
    have := @ident_cong ws ws' n "DURATION" h₀
    rw [hi, hi'] at this
    exact this
  subst hr
  cases r with
  | error e => rfl
  | ok u =>
    obtain ⟨w, hw, hl, hq⟩ := ident_ok hi
    obtain ⟨w', hw', hl', hq'⟩ := ident_ok hi'
    subst hq
    subst hq'
    dsimp only
    rcases ht : Parser.time_num ⟨n + 1, ws⟩ with ⟨rt, qt⟩
    rcases ht' : Parser.time_num ⟨n + 1, ws'⟩ with ⟨rt', qt'⟩
    have hrt : rt = rt' := by
      have := @time_num_cong ws ws' (n + 1) h₁
      rw [ht, ht'] at this
      exact this
    subst hrt
    cases rt with
    | error e => rfl
    | ok t => rfl

theorem message_cong {ws ws' : List String} {n : Nat}
    (h₀ : (ws[n]?).map toLowercase = (ws'[n]?).map toLowercase)
    (hdrop : ws.drop (n + 1) = ws'.drop (n + 1)) :
    (Parser.message ⟨n, ws⟩).1 = (Parser.message ⟨n, ws'⟩).1 := by
  unfold Parser.message
  rcases hi : Parser.ident "MSG" ⟨n, ws⟩ with ⟨r, q⟩
  rcases hi' : Parser.ident "MSG" ⟨n, ws'⟩ with ⟨r', q'⟩
  have hr : r = r' := by
    have := @ident_cong ws ws' n "MSG" h₀
    rw [hi, hi'] at this
    exact this
  subst hr
  cases r with
  | error e => rfl
  | ok u =>
    obtain ⟨w, hw, hl, hq⟩ := ident_ok hi
    obtain ⟨w', hw', hl', hq'⟩ := ident_ok hi'
    subst hq
    subst hq'
    dsimp only
    rw [hdrop]

/-- C6: two word lists that agree up to letter case at the keyword and
month positions (0, 1, 4, 6, 8) and agree exactly everywhere else give
the same parse result — the same entry or the same failure — and a
successful entry's message is the original words after position 8,
joined verbatim. -/
theorem entry_case_insensitive (ws ws' : List String)
    (hk : ∀ i, kwPos i → (ws[i]?).map toLowercase = (ws'[i]?).map toLowercase)
    (he : ∀ i, ¬ kwPos i → ws[i]? = ws'[i]?) :
    (Parser.entry ⟨0, ws⟩).1 = (Parser.entry ⟨0, ws'⟩).1 ∧
    (∀ e, (Parser.entry ⟨0, ws⟩).1 = .ok e →
      e.msg = joinSpace (ws.drop 9)) := by
  constructor
  · have h2 := he 2 (by unfold kwPos; omega)
    have h3 := he 3 (by unfold kwPos; omega)
    have h5 := he 5 (by unfold kwPos; omega)
    have h7 := he 7 (by unfold kwPos; omega)
    have hdrop : ws.drop 9 = ws'.drop 9 := by
      apply List.ext_getElem?
      intro i
      rw [List.getElem?_drop, List.getElem?_drop]
      exact he (9 + i) (by unfold kwPos; omega)
    unfold Parser.entry
    rcases h₀ : Parser.ident "REM" ⟨0, ws⟩ with ⟨r₀, q₀⟩
    rcases h₀' : Parser.ident "REM" ⟨0, ws'⟩ with ⟨r₀', q₀'⟩
    have hr₀ : r₀ = r₀' := by
      have := @ident_cong ws ws' 0 "REM"
        (hk 0 (by unfold kwPos; omega))
      rw [h₀, h₀'] at this
      exact this
    subst hr₀
    cases r₀ with
    | error e => rfl
    | ok u =>
      obtain ⟨w₀, hw₀, hl₀, hq₀⟩ := ident_ok h₀
      obtain ⟨w₀', hw₀', hl₀', hq₀'⟩ := ident_ok h₀'
      subst hq₀
      subst hq₀'
      dsimp only
      rcases h₁ : Parser.date ⟨0 + 1, ws⟩ with ⟨r₁, q₁⟩
      rcases h₁' : Parser.date ⟨0 + 1, ws'⟩ with ⟨r₁', q₁'⟩
      have hr₁ : r₁ = r₁' := by
        have := @date_cong ws ws' (0 + 1)
          (hk 1 (by unfold kwPos; omega)) h2 h3
        rw [h₁, h₁'] at this
        exact this
      subst hr₁
      cases r₁ with
      | error e => rfl
      | ok dt =>
        obtain ⟨_, _, _, _, _, _, _, _, _, _, _, _, _, hq₁⟩ := date_ok h₁
        obtain ⟨_, _, _, _, _, _, _, _, _, _, _, _, _, hq₁'⟩ := date_ok h₁'
        subst hq₁
        subst hq₁'
        dsimp only
        rcases h₂ : Parser.time ⟨0 + 1 + 3, ws⟩ with ⟨r₂, q₂⟩
        rcases h₂' : Parser.time ⟨0 + 1 + 3, ws'⟩ with ⟨r₂', q₂'⟩
        have hr₂ : r₂ = r₂' := by
          have := @time_cong ws ws' (0 + 1 + 3)
            (hk 4 (by unfold kwPos; omega)) h5
          rw [h₂, h₂'] at this
          exact this
        subst hr₂
        cases r₂ with
        | error e => rfl
        | ok t =>
          obtain ⟨_, _, _, _, _, _, hq₂⟩ := time_ok h₂
          obtain ⟨_, _, _, _, _, _, hq₂'⟩ := time_ok h₂'
          subst hq₂
          subst hq₂'
          dsimp only
          rcases h₃ : Parser.duration ⟨0 + 1 + 3 + 2, ws⟩ with ⟨r₃, q₃⟩
          rcases h₃' : Parser.duration ⟨0 + 1 + 3 + 2, ws'⟩ with ⟨r₃', q₃'⟩
          have hr₃ : r₃ = r₃' := by
            have := @duration_cong ws ws' (0 + 1 + 3 + 2)
              (hk 6 (by unfold kwPos; omega)) h7
            rw [h₃, h₃'] at this
            exact this
          subst hr₃
          cases r₃ with
          | error e => rfl
          | ok dur =>
            obtain ⟨_, _, _, _, _, _, _, _, hq₃⟩ := duration_ok h₃
            obtain ⟨_, _, _, _, _, _, _, _, hq₃'⟩ := duration_ok h₃'
            subst hq₃
            subst hq₃'
            dsimp only
            rcases h₄ : Parser.message ⟨0 + 1 + 3 + 2 + 2, ws⟩ with ⟨r₄, q₄⟩
            rcases h₄' : Parser.message ⟨0 + 1 + 3 + 2 + 2, ws'⟩ with ⟨r₄', q₄'⟩
            have hr₄ : r₄ = r₄' := by
              have := @message_cong ws ws'
                (0 + 1 + 3 + 2 + 2)
                (hk 8 (by unfold kwPos; omega)) hdrop
              rw [h₄, h₄'] at this
              exact this
            subst hr₄
            cases r₄ with
            | error e => rfl
            | ok msg => rfl
  · intro e h
    rcases hent : Parser.entry ⟨0, ws⟩ with ⟨r, q⟩
    rw [hent] at h
    dsimp only at h
    subst h
    obtain ⟨_, _, _, _, _, _, _, _, _, _, _, _, _, _, _, _,
      _, _, _, _, _, _, _, _, _, _, _, _, _, _, _, _, hE, _⟩ :=
      entry_ok hent
    rw [hE]

theorem entry_case_insensitive_witness :
    (Parser.entry ⟨0, ["REM", "Mar", "30", "2018", "AT", "19:00",
      "DURATION", "1:15", "MSG", "Event", "name"]⟩).1 =
    (Parser.entry ⟨0, ["rem", "MAR", "30", "2018", "at", "19:00",
      "duration", "1:15", "msg", "Event", "name"]⟩).1 :=
  (entry_case_insensitive
    ["REM", "Mar", "30", "2018", "AT", "19:00",
     "DURATION", "1:15", "MSG", "Event", "name"]
    ["rem", "MAR", "30", "2018", "at", "19:00",
     "duration", "1:15", "msg", "Event", "name"]
    (by
      intro i hi
      rcases (hi : i = 0 ∨ i = 1 ∨ i = 4 ∨ i = 6 ∨ i = 8) with
        rfl | rfl | rfl | rfl | rfl <;> rfl)
    (by
      intro i hi
      rcases i with _ | _ | _ | _ | _ | _ | _ | _ | _ | _ | _ | i
      · exact absurd (Or.inl rfl) hi
      · exact absurd (Or.inr (Or.inl rfl)) hi
      · rfl
      · rfl
      · exact absurd (Or.inr (Or.inr (Or.inl rfl))) hi
      · rfl
      · exact absurd (Or.inr (Or.inr (Or.inr (Or.inl rfl)))) hi
      · rfl
      · exact absurd (Or.inr (Or.inr (Or.inr (Or.inr rfl)))) hi
      · rfl
      · rfl
      · rfl)).1

end Rem
